import Mathlib

/-!
Shallow embedding of `src/karmen.py` (LanguaL thesaurus browser).

The LanguaL XML file is a flat sequence of DESCRIPTOR elements; each
descriptor exposes three text fields, in order: FTC (the node's code),
TERM (the node's name) and BT (the parent's code).  A descriptor element
is modelled as a record of those three strings, and the parsed tree
(`langual` in the source, document order) as a list of such records.

Python `while` loops with data-dependent exit conditions are modelled
with an explicit fuel parameter; exhausting the fuel (`none` /
`.outOfFuel`) models non-termination of the loop, and `.indexError`
models the `IndexError` raised by `find_byftc(...)[0]` on an empty list.
All string data in the thesaurus is ASCII; `str.upper`, `\w`, `\d` and
`[A-Z]` are modelled at ASCII precision.
-/

structure XElem where
  ftc : String
  term : String
  bt : String
deriving DecidableEq, Repr

/-- `get_ftc`: returns a string with the langual code. -/
def get_ftc (e : XElem) : String := e.ftc

/-- `get_name`: returns a string with the langual term. -/
def get_name (e : XElem) : String := e.term

/-- `get_parentcode`: returns string with langual code of parent. -/
def get_parentcode (e : XElem) : String := e.bt

/-- The parsed thesaurus: the DESCRIPTOR elements in document order. -/
abbrev Store := List XElem

/-- ASCII model of Python `str.upper()`. -/
def pyUpper (s : String) : String := ⟨s.data.map Char.toUpper⟩

/-- Does `hay` start with `needle`? (helper for substring containment). -/
def listStarts : List Char → List Char → Bool
  | [], _ => true
  | _ :: _, [] => false
  | a :: as, b :: bs => a = b && listStarts as bs

/-- Python `needle in hay` substring containment on strings. -/
def listContains (needle : List Char) : List Char → Bool
  | [] => listStarts needle []
  | c :: rest => listStarts needle (c :: rest) || listContains needle rest

/-- `find_byname`: descriptors whose TERM text equals the upper-cased
search string (document order). -/
def find_byname (st : Store) (searchstring : String) : List XElem :=
  st.filter (fun t => t.term = pyUpper searchstring)

/-- `contains_name`: descriptors whose TERM text contains the upper-cased
search string as a substring (document order). -/
def contains_name (st : Store) (searchstring : String) : List XElem :=
  st.filter (fun t => listContains (pyUpper searchstring).data t.term.data)

/-- `find_byftc` on a single code string: descriptors whose FTC text
equals the upper-cased code (document order).  The source also accepts a
list of codes; every caller in the program passes a single string. -/
def find_byftc (st : Store) (searchftc : String) : List XElem :=
  st.filter (fun e => e.ftc = pyUpper searchftc)

/-- `find_parent`: `find_byftc(get_parentcode(x))[0]`; `none` models the
`IndexError` raised when the lookup list is empty. -/
def find_parent (st : Store) (x : XElem) : Option XElem :=
  (find_byftc st (get_parentcode x)).head?

/-- `find_children`: for each element of the input list, in order, all
descriptors whose BT text equals that element's FTC code, concatenated. -/
def find_children (st : Store) : List XElem → List XElem
  | [] => []
  | e :: rest => st.filter (fun t => t.bt = get_ftc e) ++ find_children st rest

/-- Loop body of `find_descendants`: `queue` is the deque, `desc` the
result list; each recursive call is one iteration of the `while`. -/
def fdAux : Nat → Store → List XElem → List XElem → Option (List XElem)
  | 0, _, _, _ => none
  | n + 1, st, queue, desc =>
    match queue with
    | [] => some desc
    | thisnode :: rest =>
      let children := find_children st [thisnode]
      if children.isEmpty then fdAux n st rest desc
      else fdAux n st (rest ++ children) (desc ++ children)

/-- `find_descendants`: BFS from the given roots; `queue = deque(xs)` is
a copy, `desc = xs` (the returned list contains the given roots first). -/
def find_descendants (fuel : Nat) (st : Store) (xs : List XElem) :
    Option (List XElem) :=
  fdAux fuel st xs xs

/-- The reserved name of the thesaurus root descriptor. -/
def ROOTNAME : String := "LANGUAL THESAURUS ROOT"

/-- Outcomes of the `find_allparents` walk other than normal return. -/
inductive WalkErr where
  | outOfFuel
  | indexError
deriving DecidableEq, Repr

/-- `find_allparents`: repeatedly follow `find_parent` until a node named
`LANGUAL THESAURUS ROOT` is reached; the returned list runs leaf-to-root.
The source's `while True` loop has no iteration cap: `.outOfFuel` marks a
walk still running after `fuel` iterations. -/
def find_allparents : Nat → Store → XElem → Except WalkErr (List XElem)
  | 0, _, _ => .error .outOfFuel
  | n + 1, st, x =>
    if get_name x = ROOTNAME then .ok [x]
    else
      match find_parent st x with
      | none => .error .indexError
      | some p =>
        match find_allparents n st p with
        | .ok l => .ok (x :: l)
        | .error e => .error e

/-- ASCII model of a regex word character (`\w`). -/
def isWordChar (c : Char) : Bool := c.isAlphanum || c = '_'

/-- Uppercase ASCII letter (`[A-Z]`). -/
def isUpperAZ (c : Char) : Bool := 'A' ≤ c && c ≤ 'Z'

/-- ASCII decimal digit (`\d`). -/
def isDigit09 (c : Char) : Bool := '0' ≤ c && c ≤ '9'

/-- `re.match(r'[A-Z]\d{4}\b', s)`: anchored at the start of the raw
input; the word boundary after the fourth digit holds iff the input ends
there or the next character is not a word character. -/
def re_match_code : List Char → Bool
  | c :: d1 :: d2 :: d3 :: d4 :: rest =>
    isUpperAZ c && isDigit09 d1 && isDigit09 d2 && isDigit09 d3 &&
      isDigit09 d4 &&
      (match rest with
       | [] => true
       | x :: _ => !isWordChar x)
  | _ => false

/-- Observable output of one `search` call: the diagnostic messages and,
for each resolved record, either its rendered root-to-leaf tree (the
reversed `find_allparents` chain) or its flat `code, name` line. -/
inductive OutEvent where
  | msgCantFind (t : String)
  | msgNoExact (t : String)
  | msgNothingContaining (t : String)
  | tree (chain : List XElem)
  | flat (e : XElem)
deriving DecidableEq, Repr

/-- The `for e in elmt` rendering loop of `search`: one event per record;
`none` models an exception escaping from `find_allparents`. -/
def renderAll : Nat → Store → Bool → List XElem → Option (List OutEvent)
  | _, _, _, [] => some []
  | fuel, st, wt, e :: rest =>
    if wt then
      match find_allparents fuel st e with
      | .ok ch => (renderAll fuel st wt rest).map
          (fun evs => OutEvent.tree ch.reverse :: evs)
      | .error _ => none
    else
      (renderAll fuel st wt rest).map (fun evs => OutEvent.flat e :: evs)

/-- `search`: classify the raw term with `re.match(r'[A-Z]\d{4}\b', ·)`;
on the code path look up by FTC, on the name path try the exact name and
fall back to substring containment; render every resolved record. -/
def search (fuel : Nat) (st : Store) (searchterm : String)
    (withtree : Bool := true) : Option (List OutEvent) :=
  if re_match_code searchterm.data then
    let elmt := find_byftc st searchterm
    if elmt.isEmpty then some [.msgCantFind searchterm]
    else renderAll fuel st withtree elmt
  else
    let elmt := find_byname st searchterm
    if elmt.isEmpty then
      let elmt2 := contains_name st searchterm
      if elmt2.isEmpty then
        some [.msgNoExact searchterm, .msgNothingContaining searchterm]
      else (renderAll fuel st withtree elmt2).map
          (fun evs => .msgNoExact searchterm :: evs)
    else renderAll fuel st withtree elmt

/-- `ischild`: `xmlelements[0] in find_descendants(possible_parents)`;
`none` models the `IndexError` on an empty `xmlelements` or a BFS that
does not finish. -/
def ischild (fuel : Nat) (st : Store)
    (possible_parents xmlelements : List XElem) : Option Bool :=
  match xmlelements with
  | [] => none
  | e :: _ =>
    (find_descendants fuel st possible_parents).map
      (fun descendants => decide (e ∈ descendants))

/-- CPython object semantics of a `find_descendants` call: the heap holds
list objects; the argument is passed by reference (`desc = xmlelements`
aliases it), `desc.extend` mutates it in place, and the function returns
that same object.  The result is the updated heap and the index of the
returned object. -/
def find_descendantsObjCall (fuel : Nat) (st : Store)
    (heap : List (List XElem)) (i : Nat) :
    Option (List (List XElem) × Nat) :=
  match heap.get? i with
  | none => none
  | some xs =>
    match find_descendants fuel st xs with
    | none => none
    | some l => some (heap.set i l, i)

/-! ### Concrete stores

`scenStore` is the store of spec Scenarios 1–6 (root, B1213, B1062,
B1272); `cycStore` is a two-element store whose parent pointers form a
cycle, violating the tree invariant; `ambStore` has two distinct records
sharing the name `ALMOND`. -/

def rootE : XElem := ⟨"A0000", "LANGUAL THESAURUS ROOT", ""⟩

def b1213 : XElem := ⟨"B1213", "NUT PRODUCING PLANT", "A0000"⟩

def b1062 : XElem := ⟨"B1062", "TEMPERATE-ZONE NUT PRODUCING PLANT", "B1213"⟩

def b1272 : XElem := ⟨"B1272", "ALMOND", "B1062"⟩

def scenStore : Store := [rootE, b1213, b1062, b1272]

def cycA : XElem := ⟨"A0001", "LOOP A", "A0002"⟩

def cycB : XElem := ⟨"A0002", "LOOP B", "A0001"⟩

def cycStore : Store := [cycA, cycB]

def ambX : XElem := ⟨"B1111", "ALMOND", "A0000"⟩

def ambY : XElem := ⟨"B2222", "ALMOND", "A0000"⟩

def ambStore : Store := [rootE, ambX, ambY]

/-- Reachability by repeatedly following the child relation. -/
inductive Reaches (st : Store) : XElem → XElem → Prop where
  | refl (x : XElem) : Reaches st x x
  | step {x y z : XElem} : Reaches st x y → z ∈ find_children st [y] →
      Reaches st x z

/-- The tree invariant of spec §3, witnessed by a depth function `d`:
`rootRec` is the unique record carrying the reserved root name, and every
other record's parent resolves (via `find_parent`) to a record of
strictly smaller depth. -/
def TreeInv (st : Store) (d : XElem → Nat) (rootRec : XElem) : Prop :=
  rootRec ∈ st ∧ rootRec.term = ROOTNAME ∧
    (∀ r ∈ st, r.term = ROOTNAME → r = rootRec) ∧
    (∀ r ∈ st, r.term ≠ ROOTNAME →
      ∃ p ∈ (find_parent st r).toList, p ∈ st ∧ d p < d r)

/-- The store's maximum depth: the longest leaf-to-root chain length,
measured by the depth function `d` (a node at depth `k` has a chain of
`k + 1` records). -/
def storeMaxDepth (st : Store) (d : XElem → Nat) : Nat :=
  (st.map (fun x => d x + 1)).foldr max 0

/-- The record a rendered output event is about: the record itself for a
flat line, the chain's last element (the leaf) for a root-to-leaf tree,
nothing for a diagnostic message. -/
def eventSubject : OutEvent → Option XElem
  | .tree ch => ch.getLast?
  | .flat e => some e
  | _ => none

/-- The records rendered by a `search` call, in output order. -/
def renderedSubjects (evts : List OutEvent) : List XElem :=
  evts.filterMap eventSubject

/-- The match list the name path of `search` resolves to: the exact-name
matches if any, otherwise the substring matches. -/
def resolvedNames (st : Store) (term : String) : List XElem :=
  if (find_byname st term).isEmpty then contains_name st term
  else find_byname st term

/-- Python whitespace for `str.strip()` (ASCII). -/
def isPySpace (c : Char) : Bool :=
  c = ' ' || c = '\t' || c = '\n' || c = '\r' || c = '\x0b' || c = '\x0c'

/-- Modelled from the spec: Python `str.strip()`, removing leading and
trailing whitespace.  The source never trims its input; this definition
exists only to state the spec's "trimmed input" classification rule. -/
def pyStrip (s : String) : String :=
  ⟨((s.data.dropWhile isPySpace).reverse.dropWhile isPySpace).reverse⟩

/-- Modelled from the spec: "apply a strict code pattern … anchored at
the start of the trimmed input" — the spec's classification predicate,
to be compared with the code's `re_match_code` on the raw input. -/
def specCodeClassify (s : String) : Bool :=
  re_match_code (pyStrip s).data

/-- Depth of each record of `scenStore` (root at depth 0). -/
def scenDepth (r : XElem) : Nat :=
  if r.ftc = "B1213" then 1
  else if r.ftc = "B1062" then 2
  else if r.ftc = "B1272" then 3
  else 0

/-! ### Helper lemmas on children, parents and reachability -/

theorem mem_find_children_one {st : Store} {y c : XElem} :
    c ∈ find_children st [y] ↔ c ∈ st ∧ c.bt = y.ftc := by
  simp [find_children, List.mem_filter, get_ftc]

theorem mem_find_children {st : Store} {xs : List XElem} {c : XElem} :
    c ∈ find_children st xs ↔ ∃ y ∈ xs, c ∈ st ∧ c.bt = y.ftc := by
  induction xs with
  | nil => simp [find_children]
  | cons e rest ih =>
    simp [find_children, List.mem_append, ih, List.mem_filter, get_ftc,
      or_and_right, exists_or]

theorem find_parent_spec {st : Store} {x p : XElem}
    (h : find_parent st x = some p) : p ∈ st ∧ p.ftc = pyUpper x.bt := by
  have hp : p ∈ find_byftc st (get_parentcode x) := by
    unfold find_parent at h
    exact List.mem_of_mem_head? (by simp [h])
  rw [find_byftc, List.mem_filter] at hp
  exact ⟨hp.1, by simpa [get_parentcode] using hp.2⟩

theorem head?_eq_of_all {l : List XElem} {y : XElem}
    (hne : l ≠ []) (hall : ∀ a ∈ l, a = y) : l.head? = some y := by
  cases l with
  | nil => exact absurd rfl hne
  | cons a t => simp [hall a (List.mem_cons_self a t)]

theorem find_parent_eq {st : Store} {x y : XElem}
    (huniq : ∀ a ∈ st, ∀ b ∈ st, a.ftc = b.ftc → a = b)
    (hy : y ∈ st) (hcode : pyUpper x.bt = y.ftc) :
    find_parent st x = some y := by
  unfold find_parent find_byftc get_parentcode
  apply head?_eq_of_all
  · intro hnil
    have : y ∈ st.filter (fun e => e.ftc = pyUpper x.bt) := by
      rw [List.mem_filter]
      exact ⟨hy, by simp [hcode]⟩
    simp [hnil] at this
  · intro a ha
    rw [List.mem_filter] at ha
    have haf : a.ftc = pyUpper x.bt := by simpa using ha.2
    exact huniq a ha.1 y hy (haf.trans hcode)

theorem reaches_mem {st : Store} {a x : XElem}
    (h : Reaches st a x) (ha : a ∈ st) : x ∈ st := by
  induction h with
  | refl => exact ha
  | step _ hz _ => exact (mem_find_children_one.mp hz).1

/-! ### BFS loop invariants for `find_descendants` -/

theorem fdAux_mono {st : Store} :
    ∀ {n : Nat} {q d l : List XElem}, fdAux n st q d = some l → d <+: l := by
  intro n
  induction n with
  | zero => intro q d l h; simp [fdAux] at h
  | succ n ih =>
    intro q d l h
    cases q with
    | nil =>
      simp [fdAux] at h
      exact h ▸ List.prefix_refl d
    | cons t rest =>
      rw [fdAux] at h
      by_cases hc : (find_children st [t]).isEmpty
      · rw [if_pos hc] at h
        exact ih h
      · rw [if_neg hc] at h
        exact (List.prefix_append d _).trans (ih h)

theorem fdAux_closed {st : Store} :
    ∀ {n : Nat} {q d l : List XElem}, fdAux n st q d = some l →
      (∀ x ∈ q, x ∈ d) →
      (∀ x ∈ d, x ∈ q ∨ ∀ c ∈ find_children st [x], c ∈ d) →
      ∀ x ∈ l, ∀ c ∈ find_children st [x], c ∈ l := by
  intro n
  induction n with
  | zero => intro q d l h; simp [fdAux] at h
  | succ n ih =>
    intro q d l h hqd hcl
    cases q with
    | nil =>
      simp [fdAux] at h
      subst h
      intro x hx c hc
      rcases hcl x hx with hq | hcs
      · simp at hq
      · exact hcs c hc
    | cons t rest =>
      rw [fdAux] at h
      by_cases hc : (find_children st [t]).isEmpty
      · rw [if_pos hc] at h
        have hemp : find_children st [t] = [] := List.isEmpty_iff.mp hc
        refine ih h (fun x hx => hqd x (List.mem_cons_of_mem t hx)) ?_
        intro x hx
        rcases hcl x hx with hq | hcs
        · rcases List.mem_cons.mp hq with rfl | hr
          · right; intro c hcmem; rw [hemp] at hcmem; simp at hcmem
          · left; exact hr
        · right; exact hcs
      · rw [if_neg hc] at h
        refine ih h ?_ ?_
        · intro x hx
          rcases List.mem_append.mp hx with hr | hcs
          · exact List.mem_append_left _ (hqd x (List.mem_cons_of_mem t hr))
          · exact List.mem_append_right _ hcs
        · intro x hx
          rcases List.mem_append.mp hx with hd | hcs
          · rcases hcl x hd with hq | hcld
            · rcases List.mem_cons.mp hq with rfl | hr
              · right; intro c hcm; exact List.mem_append_right _ hcm
              · left; exact List.mem_append_left _ hr
            · right; intro c hcm
              exact List.mem_append_left _ (hcld c hcm)
          · left; exact List.mem_append_right _ hcs

theorem fdAux_sound {st : Store} (P : XElem → Prop)
    (hstep : ∀ y c, P y → c ∈ find_children st [y] → P c) :
    ∀ {n : Nat} {q d l : List XElem}, fdAux n st q d = some l →
      (∀ x ∈ d, P x) → (∀ x ∈ q, P x) → ∀ x ∈ l, P x := by
  intro n
  induction n with
  | zero => intro q d l h; simp [fdAux] at h
  | succ n ih =>
    intro q d l h hd hq
    cases q with
    | nil =>
      simp [fdAux] at h
      exact h ▸ hd
    | cons t rest =>
      rw [fdAux] at h
      have hcs : ∀ c ∈ find_children st [t], P c :=
        fun c hc => hstep t c (hq t (List.mem_cons_self t rest)) hc
      by_cases hc : (find_children st [t]).isEmpty
      · rw [if_pos hc] at h
        exact ih h hd (fun x hx => hq x (List.mem_cons_of_mem t hx))
      · rw [if_neg hc] at h
        refine ih h ?_ ?_
        · intro x hx
          rcases List.mem_append.mp hx with hxd | hxc
          · exact hd x hxd
          · exact hcs x hxc
        · intro x hx
          rcases List.mem_append.mp hx with hxr | hxc
          · exact hq x (List.mem_cons_of_mem t hxr)
          · exact hcs x hxc

theorem find_descendants_start {fuel : Nat} {st : Store}
    {xs l : List XElem} (h : find_descendants fuel st xs = some l) :
    xs <+: l :=
  fdAux_mono h

theorem find_descendants_closed {fuel : Nat} {st : Store}
    {xs l : List XElem} (h : find_descendants fuel st xs = some l) :
    ∀ x ∈ l, ∀ c ∈ find_children st [x], c ∈ l := by
  refine fdAux_closed h (fun x hx => hx) (fun x hx => Or.inl hx)

theorem find_descendants_complete {fuel : Nat} {st : Store}
    {xs l : List XElem} (h : find_descendants fuel st xs = some l) :
    ∀ x ∈ xs, ∀ c, Reaches st x c → c ∈ l := by
  intro x hx c hr
  have hxl : x ∈ l := (find_descendants_start h).subset hx
  induction hr with
  | refl => exact hxl
  | step _ hz ihz => exact find_descendants_closed h _ ihz _ hz

theorem find_descendants_sound {fuel : Nat} {st : Store}
    {xs l : List XElem} (h : find_descendants fuel st xs = some l) :
    ∀ c ∈ l, ∃ x ∈ xs, Reaches st x c := by
  refine fdAux_sound (fun c => ∃ x ∈ xs, Reaches st x c) ?_ h ?_ ?_
  · rintro y c ⟨x, hx, hr⟩ hc
    exact ⟨x, hx, Reaches.step hr hc⟩
  · exact fun x hx => ⟨x, hx, Reaches.refl x⟩
  · exact fun x hx => ⟨x, hx, Reaches.refl x⟩
/-! ### Lemmas on the ancestor-chain walk -/

theorem fa_succ_root {n : Nat} {st : Store} {x : XElem}
    (h : get_name x = ROOTNAME) :
    find_allparents (n + 1) st x = .ok [x] := by
  rw [find_allparents, if_pos h]

theorem fa_succ_none {n : Nat} {st : Store} {x : XElem}
    (hroot : ¬ get_name x = ROOTNAME) (hp : find_parent st x = none) :
    find_allparents (n + 1) st x = .error .indexError := by
  simp only [find_allparents, if_neg hroot, hp]

theorem fa_succ_ok {n : Nat} {st : Store} {x p : XElem} {l : List XElem}
    (hroot : ¬ get_name x = ROOTNAME) (hp : find_parent st x = some p)
    (hrec : find_allparents n st p = .ok l) :
    find_allparents (n + 1) st x = .ok (x :: l) := by
  simp only [find_allparents, if_neg hroot, hp, hrec]

theorem fa_succ_err {n : Nat} {st : Store} {x p : XElem} {e : WalkErr}
    (hroot : ¬ get_name x = ROOTNAME) (hp : find_parent st x = some p)
    (hrec : find_allparents n st p = .error e) :
    find_allparents (n + 1) st x = .error e := by
  simp only [find_allparents, if_neg hroot, hp, hrec]

theorem fa_succ_cases {n : Nat} {st : Store} {x : XElem} {l : List XElem}
    (h : find_allparents (n + 1) st x = .ok l) :
    (get_name x = ROOTNAME ∧ l = [x]) ∨
      (¬ get_name x = ROOTNAME ∧ ∃ p l', find_parent st x = some p ∧
        find_allparents n st p = .ok l' ∧ l = x :: l') := by
  by_cases hroot : get_name x = ROOTNAME
  · rw [fa_succ_root hroot] at h
    cases h
    exact Or.inl ⟨hroot, rfl⟩
  · refine Or.inr ⟨hroot, ?_⟩
    cases hp : find_parent st x with
    | none => rw [fa_succ_none hroot hp] at h; cases h
    | some p =>
      cases hrec : find_allparents n st p with
      | error e => rw [fa_succ_err hroot hp hrec] at h; cases h
      | ok l' =>
        rw [fa_succ_ok hroot hp hrec] at h
        cases h
        exact ⟨p, l', rfl, hrec, rfl⟩

theorem allparents_head {n : Nat} {st : Store} {x : XElem} {l : List XElem}
    (h : find_allparents n st x = .ok l) : l.head? = some x := by
  cases n with
  | zero => simp [find_allparents] at h
  | succ n =>
    rcases fa_succ_cases h with ⟨_, rfl⟩ | ⟨_, p, l', _, _, rfl⟩ <;> rfl

theorem allparents_mem {st : Store} :
    ∀ {n : Nat} {x : XElem} {l : List XElem},
      find_allparents n st x = .ok l → x ∈ st → ∀ a ∈ l, a ∈ st := by
  intro n
  induction n with
  | zero => intro x l h; simp [find_allparents] at h
  | succ n ih =>
    intro x l h hx
    rcases fa_succ_cases h with ⟨_, rfl⟩ | ⟨_, p, l', hp, hrec, rfl⟩
    · intro a ha
      simp at ha
      subst ha
      exact hx
    · intro a ha
      rcases List.mem_cons.mp ha with rfl | ha'
      · exact hx
      · exact ih hrec (find_parent_spec hp).1 a ha'

theorem allparents_reaches {st : Store}
    (hupB : ∀ r ∈ st, pyUpper r.bt = r.bt) :
    ∀ {n : Nat} {x : XElem} {ch : List XElem},
      find_allparents n st x = .ok ch → x ∈ st →
      ∀ a ∈ ch, Reaches st a x := by
  intro n
  induction n with
  | zero => intro x ch h; simp [find_allparents] at h
  | succ n ih =>
    intro x ch h hx
    rcases fa_succ_cases h with ⟨_, rfl⟩ | ⟨_, p, l', hp, hrec, rfl⟩
    · intro a ha
      simp at ha
      subst ha
      exact Reaches.refl _
    · intro a ha
      rcases List.mem_cons.mp ha with rfl | ha'
      · exact Reaches.refl _
      · have hpst : p ∈ st := (find_parent_spec hp).1
        have hap : Reaches st a p := ih hrec hpst a ha'
        have hxc : x ∈ find_children st [p] := by
          rw [mem_find_children_one]
          refine ⟨hx, ?_⟩
          have h2 := (find_parent_spec hp).2
          exact (hupB x hx).symm.trans h2.symm
        exact Reaches.step hap hxc

theorem reaches_allparents_mem {st : Store}
    (huniq : ∀ a ∈ st, ∀ b ∈ st, a.ftc = b.ftc → a = b)
    (hupB : ∀ r ∈ st, pyUpper r.bt = r.bt)
    (hrootNC : ∀ r ∈ st, r.term = ROOTNAME → ∀ y ∈ st, r.bt ≠ y.ftc)
    {a z : XElem} (hr : Reaches st a z) (ha : a ∈ st) :
    ∀ {g : Nat} {ch : List XElem}, find_allparents g st z = .ok ch →
      a ∈ ch := by
  induction hr with
  | refl =>
    intro g ch h
    exact List.mem_of_mem_head? (by simp [allparents_head h])
  | @step y z hxy hz ih =>
    intro g ch h
    cases g with
    | zero => simp [find_allparents] at h
    | succ n =>
      have hzst : z ∈ st := (mem_find_children_one.mp hz).1
      have hzbt : z.bt = y.ftc := (mem_find_children_one.mp hz).2
      have hyst : y ∈ st := reaches_mem hxy ha
      rcases fa_succ_cases h with ⟨hroot, rfl⟩ | ⟨hroot, p, l', hp, hrec, rfl⟩
      · exact absurd hzbt (hrootNC z hzst hroot y hyst)
      · have hfp : find_parent st z = some y := by
          refine find_parent_eq huniq hyst ?_
          rw [hupB z hzst, hzbt]
        rw [hfp] at hp
        cases hp
        exact List.mem_cons_of_mem z (ih hrec)

theorem allparents_cyc (n : Nat) :
    find_allparents n cycStore cycA = .error .outOfFuel ∧
      find_allparents n cycStore cycB = .error .outOfFuel := by
  induction n with
  | zero => exact ⟨rfl, rfl⟩
  | succ n ih =>
    constructor
    · exact fa_succ_err (by decide)
        (show find_parent cycStore cycA = some cycB from by decide) ih.2
    · exact fa_succ_err (by decide)
        (show find_parent cycStore cycB = some cycA from by decide) ih.1

theorem mem_le_foldr_max (f : XElem → Nat) :
    ∀ {xs : List XElem} {x : XElem}, x ∈ xs →
      f x ≤ (xs.map f).foldr max 0 := by
  intro xs
  induction xs with
  | nil => intro x hx; simp at hx
  | cons a t ih =>
    intro x hx
    rcases List.mem_cons.mp hx with rfl | ht
    · simp only [List.map_cons, List.foldr_cons]
      exact le_max_left _ _
    · simp only [List.map_cons, List.foldr_cons]
      exact le_trans (ih ht) (le_max_right _ _)

theorem getLast?_cons_ne {a : XElem} {l : List XElem} (h : l ≠ []) :
    (a :: l).getLast? = l.getLast? := by
  cases l with
  | nil => exact absurd rfl h
  | cons b t => simp [List.getLast?_cons_cons]

/-! ### Lemmas on rendering and classification -/

theorem renderAll_flat {fuel : Nat} {st : Store} :
    ∀ m : List XElem, renderAll fuel st false m = some (m.map .flat) := by
  intro m
  induction m with
  | nil => rfl
  | cons e rest ih => simp [renderAll, ih]

theorem renderAll_subjects {fuel : Nat} {st : Store} {wt : Bool} :
    ∀ {m : List XElem} {evs : List OutEvent},
      renderAll fuel st wt m = some evs → renderedSubjects evs = m := by
  intro m
  induction m with
  | nil =>
    intro evs h
    cases h
    rfl
  | cons e rest ih =>
    intro evs h
    rw [renderAll] at h
    cases wt with
    | false =>
      simp only [if_neg Bool.false_ne_true] at h
      cases hrec : renderAll fuel st false rest with
      | none => rw [hrec] at h; cases h
      | some evs' =>
        rw [hrec] at h
        cases h
        simp [renderedSubjects, List.filterMap_cons, eventSubject]
        exact ih hrec
    | true =>
      simp only [if_pos rfl] at h
      cases hch : find_allparents fuel st e with
      | error er => rw [hch] at h; cases h
      | ok ch =>
        rw [hch] at h
        cases hrec : renderAll fuel st true rest with
        | none => rw [hrec] at h; cases h
        | some evs' =>
          rw [hrec] at h
          cases h
          have hhd : ch.reverse.getLast? = some e := by
            rw [List.getLast?_reverse]
            exact allparents_head hch
          simp [renderedSubjects, List.filterMap_cons, eventSubject, hhd]
          exact ih hrec

theorem renderAll_shape {fuel : Nat} {st : Store} {wt : Bool} :
    ∀ {m : List XElem} {evs : List OutEvent},
      renderAll fuel st wt m = some evs →
      ∀ ev ∈ evs, (∃ ch, ev = .tree ch) ∨ ∃ e, ev = .flat e := by
  intro m
  induction m with
  | nil =>
    intro evs h
    cases h
    intro ev hev
    simp at hev
  | cons e rest ih =>
    intro evs h
    rw [renderAll] at h
    cases wt with
    | false =>
      simp only [if_neg Bool.false_ne_true] at h
      cases hrec : renderAll fuel st false rest with
      | none => rw [hrec] at h; cases h
      | some evs' =>
        rw [hrec] at h
        cases h
        intro ev hev
        rcases List.mem_cons.mp hev with rfl | hev'
        · exact Or.inr ⟨e, rfl⟩
        · exact ih hrec ev hev'
    | true =>
      simp only [if_pos rfl] at h
      cases hch : find_allparents fuel st e with
      | error er => rw [hch] at h; cases h
      | ok ch =>
        rw [hch] at h
        cases hrec : renderAll fuel st true rest with
        | none => rw [hrec] at h; cases h
        | some evs' =>
          rw [hrec] at h
          cases h
          intro ev hev
          rcases List.mem_cons.mp hev with rfl | hev'
          · exact Or.inl ⟨ch.reverse, rfl⟩
          · exact ih hrec ev hev'

theorem re_match_head_not_upper {c : Char} (hc : isUpperAZ c = false) :
    ∀ s : List Char, re_match_code (c :: s) = false := by
  intro s
  match s with
  | [] => rfl
  | [d1] => rfl
  | [d1, d2] => rfl
  | [d1, d2, d3] => rfl
  | d1 :: d2 :: d3 :: d4 :: rest => simp [re_match_code, hc]

theorem re_match_code_append_space :
    ∀ s : List Char, re_match_code (s ++ [' ']) = re_match_code s := by
  intro s
  match s with
  | [] => rfl
  | [a] => rfl
  | [a, b] => rfl
  | [a, b, c] => rfl
  | [a, b, c, d] =>
    simp [re_match_code, show isDigit09 ' ' = false from rfl]
  | a :: b :: c :: d :: e :: rest =>
    cases rest with
    | nil => simp [re_match_code, show isWordChar ' ' = false from rfl]
    | cons x t => simp [re_match_code]

/-! ### Claims -/

/-- C1 (counterexample): on the two-record cyclic store the ancestor walk
has not terminated after an iteration cap equal to the index size (2),
nor after 30 iterations — no `CycleDetectedError` is ever produced, the
loop just keeps walking the cycle. -/
theorem c1_counterexample :
    find_allparents cycStore.length cycStore cycA = .error .outOfFuel ∧
      find_allparents 30 cycStore cycA = .error .outOfFuel :=
  ⟨rfl, rfl⟩

/-- C1 (amended): when a record's parent pointers stay inside a set of
non-root records (as in a cycle), `find_allparents` never terminates:
for every iteration bound the walk is still running.  The source has no
iteration cap and no `CycleDetectedError`. -/
theorem c1_theorem (st : Store) (S : List XElem) (x : XElem) (hx : x ∈ S)
    (hS : ∀ r ∈ S, r.term ≠ ROOTNAME ∧
      ∃ p ∈ (find_parent st r).toList, p ∈ S) :
    ∀ fuel : Nat, find_allparents fuel st x = .error .outOfFuel := by
  intro fuel
  induction fuel generalizing x with
  | zero => rfl
  | succ n ih =>
    obtain ⟨hroot, p, hpmem, hpS⟩ := hS x hx
    have hfp : find_parent st x = some p := by
      cases hfp : find_parent st x with
      | none => rw [hfp] at hpmem; simp at hpmem
      | some q => rw [hfp] at hpmem; simp at hpmem; rw [hpmem]
    exact fa_succ_err hroot hfp (ih p hpS)

/-- C1 (witness): the amended theorem applied to the concrete cyclic
store. -/
theorem c1_witness :
    find_allparents 2 cycStore cycA = .error .outOfFuel :=
  c1_theorem cycStore [cycA, cycB] cycA (by decide) (by decide) 2

/-- C5: `find_descendants` returns its root set as a prefix of the
result, the result contains every record reachable from the root set by
repeated child expansion, every result element is so reachable, and on
the Scenario 6 store `find_descendants` of `{B1213}` is exactly
`[B1213, B1062, B1272]` in breadth-first order. -/
theorem c5_theorem :
    (∀ (st : Store) (fuel : Nat) (xs l : List XElem),
        find_descendants fuel st xs = some l →
        xs <+: l ∧ (∀ x ∈ xs, ∀ c, Reaches st x c → c ∈ l) ∧
          ∀ c ∈ l, ∃ x ∈ xs, Reaches st x c) ∧
      find_descendants 4 scenStore [b1213] = some [b1213, b1062, b1272] := by
  constructor
  · intro st fuel xs l h
    exact ⟨find_descendants_start h, find_descendants_complete h,
      find_descendants_sound h⟩
  · decide

/-- C5 (witness): the universal part applied to the Scenario 6 run. -/
theorem c5_witness :
    [b1213] <+: [b1213, b1062, b1272] ∧
      (∀ x ∈ [b1213], ∀ c, Reaches scenStore x c →
        c ∈ [b1213, b1062, b1272]) ∧
      ∀ c ∈ [b1213, b1062, b1272], ∃ x ∈ [b1213], Reaches scenStore x c :=
  c5_theorem.1 scenStore 4 [b1213] [b1213, b1062, b1272] (by decide)

/-- C6: in a store with globally unique codes (in the spec's uppercase
code format), the parent of every child returned by `find_children` of
`[P]` is `P` itself. -/
theorem c6_theorem (st : Store) (P C : XElem)
    (huniq : ∀ a ∈ st, ∀ b ∈ st, a.ftc = b.ftc → a = b)
    (hup : ∀ r ∈ st, pyUpper r.ftc = r.ftc)
    (hP : P ∈ st) (hC : C ∈ find_children st [P]) :
    find_parent st C = some P := by
  have h := mem_find_children_one.mp hC
  refine find_parent_eq huniq hP ?_
  rw [h.2, hup P hP]

/-- C6 (witness): `B1062` is a child of `B1213` in the scenario store and
its parent lookup returns `B1213`. -/
theorem c6_witness : find_parent scenStore b1062 = some b1213 :=
  c6_theorem scenStore b1213 b1062 (by decide) (by decide) (by decide)
    (by decide)

/-- C8: two `find_descendants` calls against an unchanged store, each on
a freshly constructed `[r]` list object, return the same sequence — the
first call's in-place mutation only affects its own argument object. -/
theorem c8_theorem (fuel : Nat) (st : Store) (r : XElem)
    (heap1 : List (List XElem)) (j1 : Nat)
    (heap2 : List (List XElem)) (j2 : Nat)
    (h1 : find_descendantsObjCall fuel st [[r], [r]] 0 = some (heap1, j1))
    (h2 : find_descendantsObjCall fuel st heap1 1 = some (heap2, j2)) :
    heap2.get? j1 = heap2.get? j2 ∧
      ∃ l, find_descendants fuel st [r] = some l ∧ heap2 = [l, l] := by
  cases hl : find_descendants fuel st [r] with
  | none =>
    rw [show find_descendantsObjCall fuel st [[r], [r]] 0 = none from by
      simp [find_descendantsObjCall, hl]] at h1
    cases h1
  | some l =>
    rw [show find_descendantsObjCall fuel st [[r], [r]] 0 =
        some ([l, [r]], 0) from by
      simp [find_descendantsObjCall, hl, List.set]] at h1
    cases h1
    rw [show find_descendantsObjCall fuel st [l, [r]] 1 =
        some ([l, l], 1) from by
      simp [find_descendantsObjCall, hl, List.set]] at h2
    cases h2
    exact ⟨rfl, l, rfl, rfl⟩

/-- C8 (witness): the two calls on the scenario store both return
`[B1213, B1062, B1272]`. -/
theorem c8_witness :
    ([[b1213, b1062, b1272], [b1213, b1062, b1272]] :
        List (List XElem)).get? 0 =
      ([[b1213, b1062, b1272], [b1213, b1062, b1272]] :
        List (List XElem)).get? 1 ∧
      ∃ l, find_descendants 4 scenStore [b1213] = some l ∧
        ([[b1213, b1062, b1272], [b1213, b1062, b1272]] :
          List (List XElem)) = [l, l] :=
  c8_theorem 4 scenStore b1213 [[b1213, b1062, b1272], [b1213]] 0
    [[b1213, b1062, b1272], [b1213, b1062, b1272]] 1 (by decide) (by decide)

/-- C10: `find_descendantsObjCall` returns the very same list object it
was given (the returned index equals the argument index), extended in
place with the discovered descendants (the argument's old contents are a
prefix of its new contents); feeding the returned object back in yields
a longer sequence with duplicates, as the concrete double call on the
scenario store shows. -/
theorem c10_theorem :
    (∀ (fuel : Nat) (st : Store) (heap : List (List XElem)) (i : Nat)
        (xs : List XElem) (heap' : List (List XElem)) (j : Nat),
        heap.get? i = some xs →
        find_descendantsObjCall fuel st heap i = some (heap', j) →
        j = i ∧ ∃ l, find_descendants fuel st xs = some l ∧
          heap'.get? i = some l ∧ xs <+: l) ∧
      find_descendantsObjCall 4 scenStore [[b1213]] 0 =
          some ([[b1213, b1062, b1272]], 0) ∧
        find_descendantsObjCall 7 scenStore [[b1213, b1062, b1272]] 0 =
          some ([[b1213, b1062, b1272, b1062, b1272, b1272]], 0) ∧
        ¬ [b1213, b1062, b1272, b1062, b1272, b1272].Nodup ∧
        [b1213, b1062, b1272].length <
          [b1213, b1062, b1272, b1062, b1272, b1272].length := by
  refine ⟨?_, by decide, by decide, by decide, by decide⟩
  intro fuel st heap i xs heap' j hget hcall
  have hget' : heap[i]? = some xs := by
    rw [← List.get?_eq_getElem?]
    exact hget
  rw [show find_descendantsObjCall fuel st heap i =
      match find_descendants fuel st xs with
      | none => none
      | some l => some (heap.set i l, i) from by
    simp [find_descendantsObjCall, hget']] at hcall
  cases hl : find_descendants fuel st xs with
  | none => rw [hl] at hcall; cases hcall
  | some l =>
    rw [hl] at hcall
    cases hcall
    refine ⟨rfl, l, rfl, ?_, find_descendants_start hl⟩
    have hlt : i < heap.length := by
      by_contra hge
      rw [List.get?_eq_none.mpr (le_of_not_lt hge)] at hget
      cases hget
    rw [List.get?_eq_getElem?]
    exact List.getElem?_set_eq_of_lt l hlt

/-- C10 (witness): the universal part applied to the first scenario
call. -/
theorem c10_witness :
    0 = 0 ∧ ∃ l, find_descendants 4 scenStore [b1213] = some l ∧
      ([[b1213, b1062, b1272]] : List (List XElem)).get? 0 = some l ∧
      [b1213] <+: l :=
  c10_theorem.1 4 scenStore [[b1213]] 0 [b1213] [[b1213, b1062, b1272]] 0
    (by decide) (by decide)

theorem le_storeMaxDepth {st : Store} {d : XElem → Nat} {r : XElem}
    (hr : r ∈ st) : d r + 1 ≤ storeMaxDepth st d :=
  mem_le_foldr_max (fun x => d x + 1) hr

/-- C2: in a store satisfying the tree invariant (witnessed by a depth
function), `find_allparents` terminates on every record given fuel
beyond the record's depth, its first element is the record, its last
element is the root record, and its length is bounded by the record's
depth plus one and hence by the store's maximum depth. -/
theorem c2_theorem {st : Store} {d : XElem → Nat} {rootRec : XElem}
    (hinv : TreeInv st d rootRec) :
    ∀ {fuel : Nat} {r : XElem}, r ∈ st → d r < fuel →
      ∃ l, find_allparents fuel st r = .ok l ∧ l.head? = some r ∧
        l.getLast? = some rootRec ∧ l.length ≤ d r + 1 ∧
        d r + 1 ≤ storeMaxDepth st d := by
  intro fuel
  induction fuel with
  | zero => intro r _ hd; exact absurd hd (Nat.not_lt_zero _)
  | succ n ih =>
    intro r hr hd
    by_cases hroot : r.term = ROOTNAME
    · have hr0 : r = rootRec := hinv.2.2.1 r hr hroot
      exact ⟨[r], fa_succ_root hroot, rfl, by rw [hr0]; rfl,
        Nat.succ_le_succ (Nat.zero_le _), le_storeMaxDepth hr⟩
    · obtain ⟨p, hpmem, hpst, hdp⟩ := hinv.2.2.2 r hr hroot
      have hfp : find_parent st r = some p := by
        cases hfp : find_parent st r with
        | none => rw [hfp] at hpmem; simp at hpmem
        | some q => rw [hfp] at hpmem; simp at hpmem; rw [hpmem]
      obtain ⟨l', hok, hhd, hlast, hlen, _⟩ := ih hpst (by omega)
      refine ⟨r :: l', fa_succ_ok hroot hfp hok, rfl, ?_, ?_,
        le_storeMaxDepth hr⟩
      · rw [getLast?_cons_ne (by intro hnil; rw [hnil] at hhd; cases hhd)]
        exact hlast
      · simp only [List.length_cons]
        omega

/-- C2 (witness): the chain of `B1272` in the scenario store reaches the
root in four steps. -/
theorem c2_witness :
    ∃ l, find_allparents 4 scenStore b1272 = .ok l ∧
      l.head? = some b1272 ∧ l.getLast? = some rootE ∧
      l.length ≤ scenDepth b1272 + 1 ∧
      scenDepth b1272 + 1 ≤ storeMaxDepth scenStore scenDepth :=
  c2_theorem (by unfold TreeInv; decide) (by decide) (by decide)

/-- C7: in a store satisfying the tree invariant (unique codes, data in
the spec's uppercase format, the root is nobody's child), and given that
the descendant walk from `[A]` and the ancestor walk from `C` both
complete, `ischild` of `[A]` `[C]` answers `true` exactly when `A`
appears in `find_allparents` of `C`. -/
theorem c7_theorem (st : Store) (A C : XElem) (f g : Nat)
    (l ch : List XElem)
    (huniq : ∀ a ∈ st, ∀ b ∈ st, a.ftc = b.ftc → a = b)
    (hupB : ∀ r ∈ st, pyUpper r.bt = r.bt)
    (hrootNC : ∀ r ∈ st, r.term = ROOTNAME → ∀ y ∈ st, r.bt ≠ y.ftc)
    (hA : A ∈ st) (hC : C ∈ st)
    (hd : find_descendants f st [A] = some l)
    (hch : find_allparents g st C = .ok ch) :
    ischild f st [A] [C] = some true ↔ A ∈ ch := by
  have hisch : ischild f st [A] [C] = some (decide (C ∈ l)) := by
    simp [ischild, hd]
  constructor
  · intro h
    rw [hisch] at h
    have hCl : C ∈ l := of_decide_eq_true (Option.some.inj h)
    obtain ⟨x, hx, hr⟩ := find_descendants_sound hd C hCl
    have hxA : x = A := by simpa using hx
    subst hxA
    exact reaches_allparents_mem huniq hupB hrootNC hr hA hch
  · intro h
    have hr : Reaches st A C := allparents_reaches hupB hch hC A h
    have hCl : C ∈ l :=
      find_descendants_complete hd A (by simp) C hr
    rw [hisch, decide_eq_true hCl]

/-- C7 (witness): `B1272` is a descendant of `B1213` and `B1213` appears
in the ancestor chain of `B1272`. -/
theorem c7_witness : ischild 4 scenStore [b1213] [b1272] = some true :=
  (c7_theorem scenStore b1213 b1272 4 5 [b1213, b1062, b1272]
    [b1272, b1062, b1213, rootE] (by decide) (by decide) (by decide)
    (by decide) (by decide) (by decide) (by rfl)).mpr (by decide)

theorem listContains_nil : ∀ hay : List Char, listContains [] hay = true := by
  intro hay
  cases hay with
  | nil => rfl
  | cons c rest => simp [listContains, listStarts]

/-- C3 (counterexample): on the scenario store neither the empty-string
query nor the whitespace-only query `" "` is a no-results outcome: the
substring fallback matches every record for the empty string (it is
contained in every name) and, for the single space, every record whose
name contains a space, so `search` renders those records. -/
theorem c3_counterexample :
    search 1 scenStore "" false =
      some [.msgNoExact "", .flat rootE, .flat b1213, .flat b1062,
        .flat b1272] ∧
      renderedSubjects [OutEvent.msgNoExact "", .flat rootE, .flat b1213,
        .flat b1062, .flat b1272] = [rootE, b1213, b1062, b1272] ∧
      search 1 scenStore " " false =
        some [.msgNoExact " ", .flat rootE, .flat b1213, .flat b1062] := by
  exact ⟨by decide, by decide, by decide⟩

/-- C3 (amended): a code-pattern query naming an absent code, and a
non-code query with no exact and no substring match — which covers a
whitespace-only query whose characters occur in no name — are normal
no-results outcomes: a message naming the exact search term, never an
exception.  Empty and whitespace-only queries are not special-cased:
they take the name path like any other non-code input, and whenever the
substring fallback matches (always, for the empty string on a non-empty
store; for whitespace, exactly when some name contains it) `search`
renders the matching records instead of a no-results message. -/
theorem c3_theorem :
    (∀ (fuel : Nat) (st : Store) (q : String) (wt : Bool),
        re_match_code q.data = true → find_byftc st q = [] →
        search fuel st q wt = some [.msgCantFind q]) ∧
      (∀ (fuel : Nat) (st : Store) (q : String) (wt : Bool),
        re_match_code q.data = false → find_byname st q = [] →
        contains_name st q = [] →
        search fuel st q wt =
          some [.msgNoExact q, .msgNothingContaining q]) ∧
      (∀ (fuel : Nat) (st : Store), (∀ r ∈ st, r.term ≠ "") → st ≠ [] →
        search fuel st "" false =
          some (.msgNoExact "" :: st.map .flat)) ∧
      ∀ (fuel : Nat) (st : Store) (q : String),
        re_match_code q.data = false → find_byname st q = [] →
        contains_name st q ≠ [] →
        search fuel st q false =
          some (.msgNoExact q :: (contains_name st q).map .flat) := by
  refine ⟨?_, ?_, ?_, ?_⟩
  · intro fuel st q wt hcode hftc
    simp [search, hcode, hftc]
  · intro fuel st q wt hcode hname hcont
    simp [search, hcode, hname, hcont]
  · intro fuel st hnames hne
    have hb : find_byname st "" = [] := by
      unfold find_byname
      rw [List.filter_eq_nil_iff]
      intro a ha
      simp only [decide_eq_true_eq]
      exact fun hterm => hnames a ha (by simpa [pyUpper] using hterm)
    have hc : contains_name st "" = st := by
      unfold contains_name
      rw [List.filter_eq_self]
      intro a ha
      simp [pyUpper, listContains_nil]
    have hcne : ¬ (contains_name st "").isEmpty = true := by
      rw [hc]
      cases st with
      | nil => exact absurd rfl hne
      | cons a t => simp
    simp [search, show re_match_code ("" : String).data = false from rfl,
      hb, hcne, hc, renderAll_flat]
    exact fun h => absurd h hne
  · intro fuel st q hcode hname hcont
    have h2 : ¬ (contains_name st q).isEmpty = true :=
      fun hi => hcont (List.isEmpty_iff.mp hi)
    simp [search, hcode, hname, h2, renderAll_flat]

/-- C3 (witness): the amended branches on the scenario store: an absent
code, a whitespace-only query contained in no name (a tab), the empty
query, and a whitespace-only query (a space) that three names contain. -/
theorem c3_witness :
    search 3 scenStore "C9999" false = some [.msgCantFind "C9999"] ∧
      search 3 scenStore "\t" false =
        some [.msgNoExact "\t", .msgNothingContaining "\t"] ∧
      search 1 scenStore "" false =
        some (.msgNoExact "" :: scenStore.map .flat) ∧
      search 1 scenStore " " false =
        some (.msgNoExact " " ::
          (contains_name scenStore " ").map .flat) :=
  ⟨c3_theorem.1 3 scenStore "C9999" false rfl (by decide),
    c3_theorem.2.1 3 scenStore "\t" false rfl (by decide) (by decide),
    c3_theorem.2.2.1 1 scenStore (by decide) (by decide),
    c3_theorem.2.2.2 1 scenStore " " rfl (by decide) (by decide)⟩

theorem no_cantFind_in_renderAll {fuel : Nat} {st : Store} {wt : Bool}
    {m : List XElem} {evs : List OutEvent} {q : String}
    (h : renderAll fuel st wt m = some evs)
    (hm : OutEvent.msgCantFind q ∈ evs) : False := by
  rcases renderAll_shape h _ hm with ⟨ch, heq⟩ | ⟨e, heq⟩ <;> simp at heq

theorem isPySpace_not_upper {c : Char} (h : isPySpace c = true) :
    isUpperAZ c = false := by
  simp [isPySpace] at h
  rcases h with ((((rfl | rfl) | rfl) | rfl) | rfl) | rfl <;> rfl

/-- C4 (counterexample): the source applies the code pattern to the raw,
untrimmed input: `" B1272"` (a valid code with a leading space) is not
classified as a CODE query — it takes the name path and resolves to
nothing — although the spec-side classifier on the trimmed input accepts
it. -/
theorem c4_counterexample :
    re_match_code (String.data " B1272") = false ∧
      specCodeClassify " B1272" = true ∧
      search 3 scenStore " B1272" false =
        some [.msgNoExact " B1272", .msgNothingContaining " B1272"] :=
  ⟨rfl, rfl, by decide⟩

/-- C4 (amended): the dispatch applies `[A-Z]\d{4}\b` to the untrimmed
input, anchored at its start: trailing whitespace does not affect
classification, any leading whitespace character forces the name path,
and `search` answers with the code-path miss message exactly when the raw
input matches the pattern and the code is absent. -/
theorem c4_theorem :
    (∀ s : List Char, re_match_code (s ++ [' ']) = re_match_code s) ∧
      (∀ (c : Char), isPySpace c = true →
        ∀ s : List Char, re_match_code (c :: s) = false) ∧
      ∀ (fuel : Nat) (st : Store) (q : String) (wt : Bool),
        search fuel st q wt = some [.msgCantFind q] ↔
          re_match_code q.data = true ∧ find_byftc st q = [] := by
  refine ⟨re_match_code_append_space, ?_, ?_⟩
  · intro c hc s
    exact re_match_head_not_upper (isPySpace_not_upper hc) s
  · intro fuel st q wt
    constructor
    · intro h
      cases hcode : re_match_code q.data with
      | true =>
        refine ⟨rfl, ?_⟩
        simp only [search, hcode, if_true] at h
        by_cases hemp : (find_byftc st q).isEmpty
        · exact List.isEmpty_iff.mp hemp
        · rw [if_neg hemp] at h
          exact (no_cantFind_in_renderAll h
            (List.mem_singleton.mpr rfl)).elim
      | false =>
        exfalso
        simp only [search, hcode, Bool.false_eq_true, if_false] at h
        by_cases hb : (find_byname st q).isEmpty
        · rw [if_pos hb] at h
          by_cases hc2 : (contains_name st q).isEmpty
          · rw [if_pos hc2] at h
            simp at h
          · rw [if_neg hc2] at h
            obtain ⟨evs, hrend, heq⟩ := Option.map_eq_some'.mp h
            simp at heq
        · rw [if_neg hb] at h
          exact no_cantFind_in_renderAll h (List.mem_singleton.mpr rfl)
    · rintro ⟨hcode, hftc⟩
      simp [search, hcode, hftc]

/-- C4 (witness): trailing whitespace keeps the code classification,
leading whitespace drops it, and an absent code yields the code-path miss
message. -/
theorem c4_witness :
    re_match_code (['B', '1', '2', '7', '2'] ++ [' ']) =
        re_match_code ['B', '1', '2', '7', '2'] ∧
      re_match_code (' ' :: ['B', '1', '2', '7', '2']) = false ∧
      search 3 scenStore "C9999" false = some [.msgCantFind "C9999"] :=
  ⟨c4_theorem.1 _, c4_theorem.2.1 ' ' rfl _,
    (c4_theorem.2.2 3 scenStore "C9999" false).mpr ⟨rfl, by decide⟩⟩

/-- C9: any name query (exact or substring fallback) that resolves to
more than one record gets every match rendered, in match order — the
records behind the rendered events are exactly the resolved match list,
never just its first element. -/
theorem c9_theorem (fuel : Nat) (st : Store) (term : String) (wt : Bool)
    (evts : List OutEvent)
    (hcode : re_match_code term.data = false)
    (h : search fuel st term wt = some evts)
    (hmulti : 2 ≤ (resolvedNames st term).length) :
    renderedSubjects evts = resolvedNames st term := by
  simp only [search, hcode, Bool.false_eq_true, if_false] at h
  by_cases hb : (find_byname st term).isEmpty
  · rw [if_pos hb] at h
    have hres : resolvedNames st term = contains_name st term := by
      rw [resolvedNames, if_pos hb]
    by_cases hc2 : (contains_name st term).isEmpty
    · rw [hres, List.isEmpty_iff.mp hc2] at hmulti
      simp at hmulti
    · rw [if_neg hc2] at h
      obtain ⟨evs, hrend, heq⟩ := Option.map_eq_some'.mp h
      rw [← heq, hres]
      simpa [renderedSubjects, List.filterMap_cons, eventSubject] using
        renderAll_subjects hrend
  · rw [if_neg hb] at h
    have hres : resolvedNames st term = find_byname st term := by
      rw [resolvedNames, if_neg hb]
    rw [hres]
    exact renderAll_subjects h

/-- C9 (witness): the ambiguous query `ALMOND` resolves to two records
and both are rendered. -/
theorem c9_witness :
    renderedSubjects [.flat ambX, .flat ambY] =
      resolvedNames ambStore "ALMOND" :=
  c9_theorem 1 ambStore "ALMOND" false [.flat ambX, .flat ambY] rfl
    (by decide) (by decide)
